import Mathlib

/-!
Verification development for the `mefiles` interactive terminal file browser
(`src/main.rs`). The program state and its operations are shallowly embedded:
filesystem access (`std::fs`) is abstracted as a record of functions, paths are
lists of components of an absolute path, machine integers are `Nat`, and
functions that can panic return `Option` (with `none` standing for a panic).
-/

namespace MeFiles

/-- An absolute filesystem path, as its list of components below the root.
The root path `/` is `[]`.  `PathBuf::parent` drops the last component and
`PathBuf::join` appends one, without any normalization, matching `std::path`. -/
abbrev FPath := List String

/-- Model of `Path::parent` for absolute paths: `None` at the root, otherwise
the path with its last component removed. -/
def parentPath : FPath → Option FPath
  | [] => none
  | ps => some ps.dropLast

/-- Model of a `chrono::DateTime<Local>` value: the six calendar fields that the
format string `%Y-%m-%d %H:%M:%S` prints. -/
structure LocalDateTime where
  year : Nat
  month : Nat
  day : Nat
  hour : Nat
  minute : Nat
  second : Nat
deriving DecidableEq

/-- The bounds chrono guarantees for the fields of a printable local datetime
(each two-digit field below 100, the year below 10000 so that `%Y` prints
exactly four digits). -/
def LocalDateTime.Valid (t : LocalDateTime) : Prop :=
  t.year < 10000 ∧ t.month < 100 ∧ t.day < 100 ∧ t.hour < 100 ∧
    t.minute < 100 ∧ t.second < 100

instance (t : LocalDateTime) : Decidable t.Valid := by
  unfold LocalDateTime.Valid; infer_instance

/-- The projection of `fs::Metadata` that `refresh_entries` reads: directory
flag, byte length, and the modification time (`None` when
`metadata.modified()` returns an error). -/
structure FMeta where
  isDir : Bool
  len : Nat
  mtime : Option LocalDateTime
deriving DecidableEq

/-- The filesystem as seen through the `std::fs` calls the program makes.
`readDir p = none` models `fs::read_dir` failing (unreadable directory);
the `some` case lists the child names in the order `read_dir` yields them.
`metadata p = none` models `fs::metadata` failing for that path.
`isDirPath` models `Path::is_dir`, and `canon` models `fs::canonicalize`
(`none` on failure). -/
structure FS where
  readDir : FPath → Option (List String)
  metadata : FPath → Option FMeta
  isDirPath : FPath → Bool
  canon : FPath → Option FPath

/-- The `FileEntry` struct of the source: display name, absolute path,
directory flag, byte size, formatted modification time. -/
structure FileEntry where
  name : String
  path : FPath
  is_dir : Bool
  size : Nat
  modified : String
deriving DecidableEq

/-- The `App` struct of the source: current directory, listing, cursor,
hidden-file flag. -/
structure App where
  current_dir : FPath
  entries : List FileEntry
  selected_index : Nat
  show_hidden : Bool
deriving DecidableEq

/-- The decimal digit character for `k < 10`, as chrono prints it. -/
def digitChar (k : Nat) : Char := Char.ofNat (48 + k)

/-- Zero-padded two-digit decimal rendering, modelling chrono `%m %d %H %M %S`
on their in-range values. -/
def pad2 (n : Nat) : String := String.mk [digitChar (n / 10), digitChar (n % 10)]

/-- Zero-padded four-digit decimal rendering, modelling chrono `%Y` (years of
10000 and beyond print unpadded). -/
def pad4 (n : Nat) : String :=
  if n < 10000 then
    String.mk [digitChar (n / 1000), digitChar (n / 100 % 10),
      digitChar (n / 10 % 10), digitChar (n % 10)]
  else
    toString n

/-- Model of `datetime.format("%Y-%m-%d %H:%M:%S").to_string()`. -/
def formatDateTime (t : LocalDateTime) : String :=
  pad4 t.year ++ "-" ++ pad2 t.month ++ "-" ++ pad2 t.day ++ " " ++
    pad2 t.hour ++ ":" ++ pad2 t.minute ++ ":" ++ pad2 t.second

/-- `format_modified_time` of the source: format the modification time, or the
literal `"Unknown"` when it is unavailable. Total: it never fails. -/
def format_modified_time (m : FMeta) : String :=
  match m.mtime with
  | some t => formatDateTime t
  | none => "Unknown"

/-- Lexicographic comparison of char lists, modelling Rust `str::cmp` (UTF-8
byte order agrees with code-point order). -/
def strCmp : List Char → List Char → Ordering
  | [], [] => Ordering.eq
  | [], _ :: _ => Ordering.lt
  | _ :: _, [] => Ordering.gt
  | a :: as, b :: bs =>
    if a < b then Ordering.lt else if b < a then Ordering.gt else strCmp as bs

/-- The case-insensitive sort key: `name.to_lowercase()` as a char list. -/
def lowerKey (s : String) : List Char := s.data.map Char.toLower

/-- The comparator of `refresh_entries`: directories before files, otherwise
case-insensitive name order. -/
def entryCmp (a b : FileEntry) : Ordering :=
  match a.is_dir, b.is_dir with
  | true, false => Ordering.lt
  | false, true => Ordering.gt
  | _, _ => strCmp (lowerKey a.name) (lowerKey b.name)

/-- The weak order induced by `entryCmp`; `Vec::sort_by` orders by it. -/
def entryLE (a b : FileEntry) : Bool := entryCmp a b != Ordering.gt

/-- Insert into a sorted list, keeping earlier-inserted equivalents first. -/
def insertSorted (a : FileEntry) : List FileEntry → List FileEntry
  | [] => [a]
  | b :: l => if entryLE a b then a :: b :: l else b :: insertSorted a l

/-- Stable sort by `entryCmp`, modelling `Vec::sort_by` (which is stable):
for a total preorder the stable sorted permutation is unique, and insertion
sort from the right produces it. -/
def sortEntries : List FileEntry → List FileEntry
  | [] => []
  | a :: l => insertSorted a (sortEntries l)

/-- Model of `file_name.starts_with('.')`. -/
def startsWithDot (s : String) : Bool :=
  match s.data with
  | [] => false
  | c :: _ => c == '.'

/-- One loop body of `refresh_entries` after the hidden check: read metadata
(skip the child on failure) and build the `FileEntry`. -/
def childEntry (fs : FS) (dir : FPath) (n : String) : Option FileEntry :=
  match fs.metadata (dir ++ [n]) with
  | none => none
  | some m =>
    some { name := n, path := dir ++ [n], is_dir := m.isDir,
           size := if m.isDir then 0 else m.len,
           modified := format_modified_time m }

/-- One loop body of `refresh_entries`: skip hidden names unless
`show_hidden`, then build the child entry. -/
def visibleChild (show_hidden : Bool) (fs : FS) (dir : FPath) (n : String) :
    Option FileEntry :=
  if !show_hidden && startsWithDot n then none else childEntry fs dir n

/-- The entry-building loop of `refresh_entries` over the names `read_dir`
yielded. -/
def processEntries (fs : FS) (dir : FPath) (show_hidden : Bool)
    (names : List String) : List FileEntry :=
  names.filterMap (visibleChild show_hidden fs dir)

/-- The synthetic parent entry pushed by `refresh_entries`: name `".."`, path
`current_dir.join("..")`, directory flag set, size `0`, empty modified
string. -/
def parentEntry (dir : FPath) : FileEntry :=
  { name := "..", path := dir ++ [".."], is_dir := true, size := 0,
    modified := "" }

/-- The entries pushed before the directory is read: the parent entry when the
current directory has a parent, nothing otherwise. -/
def baseEntries (dir : FPath) : List FileEntry :=
  match parentPath dir with
  | some _ => [parentEntry dir]
  | none => []

/-- `App::refresh_entries`. The parent entry is pushed first (from the
pre-fallback current directory); then `read_dir` runs: on failure the code
moves `current_dir` up one level and calls `read_dir(parent).unwrap()`, so an
unreadable parent, or an unreadable root with no parent, panics (`none`).
Finally the whole vector, parent entry included, is sorted. -/
def refresh_entries (fs : FS) (app : App) : Option App :=
  let base := baseEntries app.current_dir
  match fs.readDir app.current_dir with
  | some names =>
    some { app with
           entries := sortEntries
             (base ++ processEntries fs app.current_dir app.show_hidden names),
           selected_index := 0 }
  | none =>
    match parentPath app.current_dir with
    | none => none
    | some parent =>
      match fs.readDir parent with
      | none => none
      | some names =>
        some { current_dir := parent,
               entries := sortEntries
                 (base ++ processEntries fs parent app.show_hidden names),
               selected_index := 0,
               show_hidden := app.show_hidden }

/-- `fs::canonicalize(p)` with the fallback to the original path on failure,
as `navigate_to` and `navigate_up` both do. -/
def resolvePath (fs : FS) (p : FPath) : FPath :=
  match fs.canon p with
  | some c => c
  | none => p

/-- `App::navigate_to`: only acts when the target is a directory; sets the
(canonicalized) directory and refreshes. -/
def navigate_to (fs : FS) (app : App) (path : FPath) : Option App :=
  if fs.isDirPath path then
    refresh_entries fs { app with current_dir := resolvePath fs path }
  else
    some app

/-- `App::navigate_up`: only acts when the current directory has a parent;
sets the (canonicalized) parent and refreshes. -/
def navigate_up (fs : FS) (app : App) : Option App :=
  match parentPath app.current_dir with
  | some parent =>
    refresh_entries fs { app with current_dir := resolvePath fs parent }
  | none => some app

/-- `App::toggle_hidden_files`: flip the flag, refresh. -/
def toggle_hidden_files (fs : FS) (app : App) : Option App :=
  refresh_entries fs { app with show_hidden := !app.show_hidden }

/-- The `KeyCode::Up` arm of `run_app`. -/
def moveCursorUp (app : App) : App :=
  if app.selected_index > 0 then
    { app with selected_index := app.selected_index - 1 }
  else app

/-- The `KeyCode::Down` arm of `run_app` (`len().saturating_sub(1)` is `Nat`
subtraction). -/
def moveCursorDown (app : App) : App :=
  if app.selected_index < app.entries.length - 1 then
    { app with selected_index := app.selected_index + 1 }
  else app

/-- A cursor key. -/
inductive CursorMove where
  | up
  | down
deriving DecidableEq

/-- Dispatch of one cursor key. -/
def applyCursorMove : CursorMove → App → App
  | CursorMove.up, app => moveCursorUp app
  | CursorMove.down, app => moveCursorDown app

/-- A sequence of cursor keys, applied left to right. -/
def applyCursorMoves (ms : List CursorMove) (app : App) : App :=
  ms.foldl (fun a m => applyCursorMove m a) app

/-- The `KeyCode::Enter` arm of `run_app`: when the selection is in bounds,
descend into a directory entry or hand a file entry to the editor (second
component: the path given to the editor). Out of bounds: nothing happens. -/
def pressEnter (fs : FS) (app : App) : Option App × Option FPath :=
  if h : app.selected_index < app.entries.length then
    let e := app.entries.get ⟨app.selected_index, h⟩
    if e.is_dir then (navigate_to fs app e.path, none)
    else (some app, some e.path)
  else (some app, none)

/-- Outcome of `Command::new("nvim").arg(path).status()`: the spawn failed, or
the child ran and exited with the given status code. -/
inductive SpawnOutcome where
  | spawnFailed
  | exited (code : Int)
deriving DecidableEq

/-- `open_in_neovim`, with terminal mode switching abstracted away as
succeeding. `status()` is unwrapped with `.expect(...)`, so a spawn failure
panics (`none`); otherwise the result records whether the nonzero-exit
diagnostic was printed, and control returns to the browser loop. -/
def open_in_neovim : SpawnOutcome → Option Bool
  | SpawnOutcome.spawnFailed => none
  | SpawnOutcome.exited c => some (c != 0)

/-- The listing the main (non-fallback) path of `refresh_entries` builds for a
directory and flag: parent entry when the directory has a parent, plus the
visible children with readable metadata, sorted; `none` when the directory is
unreadable. -/
def listingOf (fs : FS) (dir : FPath) (show_hidden : Bool) :
    Option (List FileEntry) :=
  match fs.readDir dir with
  | none => none
  | some names =>
    some (sortEntries (baseEntries dir ++ processEntries fs dir show_hidden names))

/-- The hidden-marker visibility filter as the spec states it: a name is
visible when the flag is on or it does not start with a dot. -/
def visibleName (show_hidden : Bool) (n : String) : Bool :=
  !(!show_hidden && startsWithDot n)

/-- Modelled from the spec: "the children of D that are visible under H",
the comparison side of the listing claims — the names `read_dir` yields,
filtered only by the hidden marker. -/
def visibleChildNames (fs : FS) (dir : FPath) (show_hidden : Bool) :
    List String :=
  ((fs.readDir dir).getD []).filter (visibleName show_hidden)

/-- Whether a string has the shape `YYYY-MM-DD HH:MM:SS`. -/
def matchesTimestampFormat (s : String) : Bool :=
  match s.data with
  | [y1, y2, y3, y4, a1, m1, m2, a2, d1, d2, a3, g1, g2, a4, i1, i2, a5, s1, s2] =>
    ([y1, y2, y3, y4, m1, m2, d1, d2, g1, g2, i1, i2, s1, s2].all Char.isDigit)
      && (a1 == '-') && (a2 == '-') && (a3 == ' ') && (a4 == ':') && (a5 == ':')
  | _ => false

/-- The cursor invariant maintained by the event loop: the selection is `0`
(in particular on an empty listing) or a valid index into the listing. -/
def cursorInv (app : App) : Prop :=
  app.selected_index = 0 ∨ app.selected_index < app.entries.length

instance (app : App) : Decidable (cursorInv app) := by
  unfold cursorInv; infer_instance

/-- A concrete filesystem: directory `a` with a readable child file `f`
(5 bytes, no modification time) and a child `g` whose metadata is
unreadable. -/
def fs1 : FS :=
  { readDir := fun p => if p = ["a"] then some ["f", "g"] else none,
    metadata := fun p => if p = ["a", "f"] then some ⟨false, 5, none⟩ else none,
    isDirPath := fun p => p == ["a"],
    canon := fun p => some p }

/-- A browser looking at directory `a`, hidden files off. -/
def app1 : App :=
  { current_dir := ["a"], entries := [], selected_index := 0,
    show_hidden := false }

/-- A concrete filesystem where directory `a` is unreadable but the root is
readable (listing `a` itself). -/
def fs3 : FS :=
  { readDir := fun p => if p = [] then some ["a"] else none,
    metadata := fun p => if p = ["a"] then some ⟨true, 0, none⟩ else none,
    isDirPath := fun p => p == ["a"],
    canon := fun p => some p }

/-- A concrete filesystem where only the root is readable: `a/b` and its
parent `a` are both unreadable, while the ancestor root is readable. -/
def fs4 : FS :=
  { readDir := fun p => if p = [] then some [] else none,
    metadata := fun _ => none,
    isDirPath := fun _ => false,
    canon := fun p => some p }

/-- A browser looking at the doubly-unreadable directory `a/b`. -/
def app4 : App :=
  { current_dir := ["a", "b"], entries := [], selected_index := 0,
    show_hidden := false }

/-- A concrete filesystem: directory `a` contains a child directory named
`!b`, whose name sorts before `..` case-insensitively. -/
def fs5 : FS :=
  { readDir := fun p => if p = ["a"] then some ["!b"] else none,
    metadata := fun p => if p = ["a", "!b"] then some ⟨true, 0, none⟩ else none,
    isDirPath := fun p => p == ["a"],
    canon := fun p => some p }

/-- Children listing of the witness filesystem: root holds `d`, `d` holds
`sub`, `d/sub` is empty, everything else is unreadable. -/
def fsWread (p : FPath) : Option (List String) :=
  if p = [] then some ["d"]
  else if p = ["d"] then some ["sub"]
  else if p = ["d", "sub"] then some []
  else none

/-- Metadata of the witness filesystem: `d` and `d/sub` are directories with
no modification time; everything else has unreadable metadata. -/
def fsWmeta (p : FPath) : Option FMeta :=
  if p = ["d"] then some ⟨true, 0, none⟩
  else if p = ["d", "sub"] then some ⟨true, 0, none⟩
  else none

/-- The witness filesystem. -/
def fsW : FS :=
  { readDir := fsWread,
    metadata := fsWmeta,
    isDirPath := fun p => p == ["d", "sub"],
    canon := fun p => some p }

/-- A browser looking at directory `d` (with a stale out-of-range cursor, as
left by an earlier listing). -/
def appW : App :=
  { current_dir := ["d"], entries := [], selected_index := 3,
    show_hidden := false }

/-- A browser looking at the unreadable directory `d/x` of the witness
filesystem. -/
def appW4 : App :=
  { current_dir := ["d", "x"], entries := [], selected_index := 0,
    show_hidden := false }

/-- The entry the witness filesystem produces for `d/sub`. -/
def subEntryW : FileEntry := ⟨"sub", ["d", "sub"], true, 0, "Unknown"⟩

/-- The entry the witness filesystem produces for `d`. -/
def dEntryW : FileEntry := ⟨"d", ["d"], true, 0, "Unknown"⟩

/-- The state after descending from `d` into `d/sub`. -/
def rW1 : App := ⟨["d", "sub"], [parentEntry ["d", "sub"]], 0, false⟩

/-- The state after ascending from `d` to the root. -/
def rW2 : App := ⟨[], [dEntryW], 0, false⟩

/-- The state after toggling hidden files once from `appW`. -/
def rW3 : App := ⟨["d"], [parentEntry ["d"], subEntryW], 0, true⟩

/-- The state after toggling hidden files twice from `appW` (and also the
state refreshing `appW` in place produces). -/
def rW4 : App := ⟨["d"], [parentEntry ["d"], subEntryW], 0, false⟩

/-- A browser state with two entries and the cursor on the second, for
exercising cursor moves. -/
def appC2 : App := ⟨[], [parentEntry ["d"], subEntryW], 1, false⟩

theorem strCmp_gt_iff (s t : List Char) :
    strCmp s t = Ordering.gt ↔ strCmp t s = Ordering.lt := by
  induction s generalizing t with
  | nil => cases t <;> simp [strCmp]
  | cons a as ih =>
    cases t with
    | nil => simp [strCmp]
    | cons b bs =>
      by_cases hab : a < b
      · have hba : ¬ b < a := lt_asymm hab
        simp [strCmp, hab, hba]
      · by_cases hba : b < a
        · simp [strCmp, hab, hba]
        · simp [strCmp, hab, hba, ih bs]

theorem strCmp_total (s t : List Char) :
    strCmp s t ≠ Ordering.gt ∨ strCmp t s ≠ Ordering.gt := by
  by_cases h : strCmp s t = Ordering.gt
  · right
    have h2 := (strCmp_gt_iff s t).mp h
    simp [h2]
  · left
    exact h

theorem strCmp_le_trans :
    ∀ (s t u : List Char), strCmp s t ≠ Ordering.gt →
      strCmp t u ≠ Ordering.gt → strCmp s u ≠ Ordering.gt := by
  intro s
  induction s with
  | nil =>
    intro t u h1 h2
    cases u <;> simp [strCmp]
  | cons a as ih =>
    intro t u h1 h2
    cases u with
    | nil =>
      cases t with
      | nil => exact h1
      | cons b bs => exact absurd rfl h2
    | cons c cs =>
      cases t with
      | nil => exact absurd rfl h1
      | cons b bs =>
        by_cases hab : a < b
        · by_cases hbc : b < c
          · have hac : a < c := lt_trans hab hbc
            simp [strCmp, hac]
          · by_cases hcb : c < b
            · exact absurd (by simp [strCmp, hbc, hcb]) h2
            · have hbc2 : b = c := le_antisymm (not_lt.mp hcb) (not_lt.mp hbc)
              subst hbc2
              simp [strCmp, hab]
        · by_cases hba : b < a
          · exact absurd (by simp [strCmp, hab, hba]) h1
          · have hab2 : a = b := le_antisymm (not_lt.mp hba) (not_lt.mp hab)
            subst hab2
            have h1r : strCmp as bs ≠ Ordering.gt := by
              simpa [strCmp, lt_self_iff_false] using h1
            by_cases hac : a < c
            · simp [strCmp, hac]
            · by_cases hca : c < a
              · exact absurd (by simp [strCmp, hac, hca]) h2
              · have h2r : strCmp bs cs ≠ Ordering.gt := by
                  simpa [strCmp, hac, hca] using h2
                simpa [strCmp, hac, hca] using ih bs cs h1r h2r

theorem entryLE_iff (a b : FileEntry) :
    entryLE a b = true ↔ entryCmp a b ≠ Ordering.gt := by
  unfold entryLE
  cases entryCmp a b <;> decide

theorem entryLE_total (a b : FileEntry) :
    entryLE a b = true ∨ entryLE b a = true := by
  rw [entryLE_iff, entryLE_iff]
  unfold entryCmp
  cases ha : a.is_dir <;> cases hb : b.is_dir
  · exact strCmp_total _ _
  · right; exact (by decide : Ordering.lt ≠ Ordering.gt)
  · left; exact (by decide : Ordering.lt ≠ Ordering.gt)
  · exact strCmp_total _ _

theorem entryLE_trans (a b c : FileEntry) (h1 : entryLE a b = true)
    (h2 : entryLE b c = true) : entryLE a c = true := by
  rw [entryLE_iff] at h1 h2 ⊢
  unfold entryCmp at h1 h2 ⊢
  cases ha : a.is_dir <;> cases hb : b.is_dir <;> cases hc : c.is_dir <;>
      rw [ha, hb] at h1 <;> rw [hb, hc] at h2
  · exact strCmp_le_trans _ _ _ h1 h2
  · exact absurd rfl h2
  · exact absurd rfl h1
  · exact absurd rfl h1
  · exact (by decide : Ordering.lt ≠ Ordering.gt)
  · exact absurd rfl h2
  · exact (by decide : Ordering.lt ≠ Ordering.gt)
  · exact strCmp_le_trans _ _ _ h1 h2

theorem entryLE_dirs_first (a b : FileEntry) (h : entryLE a b = true)
    (ha : a.is_dir = false) : b.is_dir = false := by
  cases hb : b.is_dir
  · rfl
  · rw [entryLE_iff] at h
    unfold entryCmp at h
    rw [ha, hb] at h
    exact absurd rfl h

theorem entryLE_alpha (a b : FileEntry) (h : entryLE a b = true)
    (hd : a.is_dir = b.is_dir) :
    strCmp (lowerKey a.name) (lowerKey b.name) ≠ Ordering.gt := by
  rw [entryLE_iff] at h
  unfold entryCmp at h
  cases ha : a.is_dir <;> cases hb : b.is_dir <;> rw [ha, hb] at h
  · exact h
  · rw [ha, hb] at hd; exact absurd hd (by decide)
  · rw [ha, hb] at hd; exact absurd hd (by decide)
  · exact h

theorem insertSorted_perm (a : FileEntry) (l : List FileEntry) :
    List.Perm (insertSorted a l) (a :: l) := by
  induction l with
  | nil => exact List.Perm.refl _
  | cons b l ih =>
    unfold insertSorted
    by_cases h : entryLE a b = true
    · rw [if_pos h]
    · rw [if_neg h]
      exact (ih.cons b).trans (List.Perm.swap a b l)

theorem sortEntries_perm (l : List FileEntry) :
    List.Perm (sortEntries l) l := by
  induction l with
  | nil => exact List.Perm.refl _
  | cons a l ih =>
    exact (insertSorted_perm a (sortEntries l)).trans (ih.cons a)

theorem insertSorted_pairwise (a : FileEntry) (l : List FileEntry)
    (h : l.Pairwise (fun x y => entryLE x y = true)) :
    (insertSorted a l).Pairwise (fun x y => entryLE x y = true) := by
  induction l with
  | nil => simp [insertSorted]
  | cons b l ih =>
    rcases List.pairwise_cons.mp h with ⟨hb, hl⟩
    unfold insertSorted
    by_cases hab : entryLE a b = true
    · rw [if_pos hab]
      refine List.pairwise_cons.mpr ⟨?_, h⟩
      intro x hx
      rcases List.mem_cons.mp hx with rfl | hx
      · exact hab
      · exact entryLE_trans a b x hab (hb x hx)
    · rw [if_neg hab]
      have hba : entryLE b a = true := (entryLE_total a b).resolve_left hab
      refine List.pairwise_cons.mpr ⟨?_, ih hl⟩
      intro x hx
      have hx2 : x ∈ a :: l := (insertSorted_perm a l).mem_iff.mp hx
      rcases List.mem_cons.mp hx2 with rfl | hx3
      · exact hba
      · exact hb x hx3

theorem sortEntries_pairwise (l : List FileEntry) :
    (sortEntries l).Pairwise (fun x y => entryLE x y = true) := by
  induction l with
  | nil => simp [sortEntries]
  | cons a l ih => exact insertSorted_pairwise a (sortEntries l) ih

theorem sortEntries_cons_min (a : FileEntry) (l : List FileEntry)
    (h : ∀ x ∈ l, entryLE a x = true) :
    sortEntries (a :: l) = a :: sortEntries l := by
  show insertSorted a (sortEntries l) = _
  cases hsl : sortEntries l with
  | nil => rfl
  | cons b t =>
    have hb : b ∈ l := (sortEntries_perm l).mem_iff.mp
      (by rw [hsl]; exact List.mem_cons_self b t)
    unfold insertSorted
    rw [if_pos (h b hb)]

theorem refresh_entries_of_read (fs : FS) (app : App) (names : List String)
    (h : fs.readDir app.current_dir = some names) :
    refresh_entries fs app = some { app with
      entries := sortEntries (baseEntries app.current_dir ++
        processEntries fs app.current_dir app.show_hidden names),
      selected_index := 0 } := by
  unfold refresh_entries
  rw [h]

theorem refresh_entries_show_hidden (fs : FS) (app app2 : App)
    (h : refresh_entries fs app = some app2) :
    app2.show_hidden = app.show_hidden := by
  unfold refresh_entries at h
  split at h
  · rw [Option.some.injEq] at h
    subst h
    rfl
  · split at h
    · exact absurd h (by simp)
    · split at h
      · exact absurd h (by simp)
      · rw [Option.some.injEq] at h
        subst h
        rfl

theorem refresh_entries_selected_index (fs : FS) (app app2 : App)
    (h : refresh_entries fs app = some app2) :
    app2.selected_index = 0 := by
  unfold refresh_entries at h
  split at h
  · rw [Option.some.injEq] at h
    subst h
    rfl
  · split at h
    · exact absurd h (by simp)
    · split at h
      · exact absurd h (by simp)
      · rw [Option.some.injEq] at h
        subst h
        rfl

theorem refresh_entries_shape (fs : FS) (app app2 : App)
    (h : refresh_entries fs app = some app2) :
    ∃ names,
      fs.readDir app2.current_dir = some names ∧
      app2.entries = sortEntries (baseEntries app.current_dir ++
        processEntries fs app2.current_dir app.show_hidden names) := by
  unfold refresh_entries at h
  split at h
  · rename_i names hread
    rw [Option.some.injEq] at h
    subst h
    exact ⟨names, hread, rfl⟩
  · split at h
    · exact absurd h (by simp)
    · split at h
      · exact absurd h (by simp)
      · rename_i hfail parent hparent names hread
        rw [Option.some.injEq] at h
        subst h
        exact ⟨names, hread, rfl⟩

theorem listingOf_eq (fs : FS) (dir : FPath) (sh : Bool) (names : List String)
    (h : fs.readDir dir = some names) :
    listingOf fs dir sh =
      some (sortEntries (baseEntries dir ++ processEntries fs dir sh names)) := by
  unfold listingOf
  rw [h]

theorem processEntries_map_name (fs : FS) (dir : FPath) (sh : Bool)
    (names : List String) :
    (processEntries fs dir sh names).map FileEntry.name =
      names.filter (fun n =>
        visibleName sh n && (fs.metadata (dir ++ [n])).isSome) := by
  induction names with
  | nil => rfl
  | cons n names ih =>
    unfold processEntries at ih ⊢
    rw [List.filterMap_cons, List.filter_cons]
    by_cases hv : (!sh && startsWithDot n) = true
    · have h1 : visibleChild sh fs dir n = none := by
        unfold visibleChild
        rw [if_pos hv]
      have h2 : visibleName sh n = false := by
        unfold visibleName
        rw [hv]
        rfl
      simp [h1, h2, ih]
    · have hv2 : (!sh && startsWithDot n) = false := by
        cases hb : (!sh && startsWithDot n)
        · rfl
        · exact absurd hb hv
      have h1 : visibleChild sh fs dir n = childEntry fs dir n := by
        unfold visibleChild
        rw [hv2]
        rfl
      have h2 : visibleName sh n = true := by
        unfold visibleName
        rw [hv2]
        rfl
      cases hm : fs.metadata (dir ++ [n]) with
      | none =>
        have h3 : childEntry fs dir n = none := by
          unfold childEntry
          rw [hm]
        simp [h1, h2, h3, hm, ih]
      | some m =>
        have h3 : ∃ e, childEntry fs dir n = some e ∧ e.name = n := by
          unfold childEntry
          rw [hm]
          exact ⟨_, rfl, rfl⟩
        rcases h3 with ⟨e, h3, hname⟩
        simp [h1, h2, h3, hm, hname, ih]

theorem mem_processEntries (fs : FS) (dir : FPath) (sh : Bool)
    (names : List String) (e : FileEntry)
    (h : e ∈ processEntries fs dir sh names) :
    ∃ n m, n ∈ names ∧ fs.metadata (dir ++ [n]) = some m ∧
      e.name = n ∧ e.modified = format_modified_time m := by
  unfold processEntries at h
  rcases List.mem_filterMap.mp h with ⟨n, hn, hv⟩
  unfold visibleChild at hv
  split at hv
  · exact absurd hv (by simp)
  · unfold childEntry at hv
    split at hv
    · exact absurd hv (by simp)
    · rename_i m hm
      rw [Option.some.injEq] at hv
      subst hv
      exact ⟨n, m, hn, hm, rfl, rfl⟩

theorem baseEntries_map_name (dir : FPath) :
    (baseEntries dir).map FileEntry.name =
      (if (parentPath dir).isSome then [".."] else []) := by
  unfold baseEntries
  cases parentPath dir <;> rfl

theorem mem_baseEntries (dir : FPath) (e : FileEntry)
    (h : e ∈ baseEntries dir) : e = parentEntry dir := by
  unfold baseEntries at h
  cases hp : parentPath dir <;> rw [hp] at h
  · exact absurd h (by simp)
  · rcases List.mem_singleton.mp h with rfl
    rfl

theorem applyCursorMove_entries (m : CursorMove) (app : App) :
    (applyCursorMove m app).entries = app.entries := by
  cases m
  · show (moveCursorUp app).entries = app.entries
    unfold moveCursorUp
    split <;> rfl
  · show (moveCursorDown app).entries = app.entries
    unfold moveCursorDown
    split <;> rfl

theorem cursorInv_move (m : CursorMove) (app : App) (h : cursorInv app) :
    cursorInv (applyCursorMove m app) := by
  unfold cursorInv at h
  cases m
  · show cursorInv (moveCursorUp app)
    unfold cursorInv moveCursorUp
    split
    · show app.selected_index - 1 = 0 ∨ app.selected_index - 1 < app.entries.length
      omega
    · exact h
  · show cursorInv (moveCursorDown app)
    unfold cursorInv moveCursorDown
    split
    · show app.selected_index + 1 = 0 ∨ app.selected_index + 1 < app.entries.length
      omega
    · exact h

theorem digitChar_isDigit : ∀ k, k < 10 → (digitChar k).isDigit = true := by
  decide

theorem formatDateTime_data (t : LocalDateTime) (h : t.year < 10000) :
    (formatDateTime t).data =
      [digitChar (t.year / 1000), digitChar (t.year / 100 % 10),
       digitChar (t.year / 10 % 10), digitChar (t.year % 10), '-',
       digitChar (t.month / 10), digitChar (t.month % 10), '-',
       digitChar (t.day / 10), digitChar (t.day % 10), ' ',
       digitChar (t.hour / 10), digitChar (t.hour % 10), ':',
       digitChar (t.minute / 10), digitChar (t.minute % 10), ':',
       digitChar (t.second / 10), digitChar (t.second % 10)] := by
  unfold formatDateTime pad4 pad2
  rw [if_pos h]
  simp [String.data_append]

theorem formatDateTime_matches (t : LocalDateTime) (h : t.Valid) :
    matchesTimestampFormat (formatDateTime t) = true := by
  obtain ⟨hy, hmo, hd, hh, hmi, hs⟩ := h
  unfold matchesTimestampFormat
  rw [formatDateTime_data t hy]
  simp only [List.all_cons, List.all_nil, Bool.and_true, Bool.and_eq_true]
  repeat' apply And.intro
  all_goals first
    | rfl
    | exact digitChar_isDigit _ (by omega)

theorem format_modified_time_shape (m : FMeta)
    (hval : ∀ t, m.mtime = some t → t.Valid) :
    format_modified_time m = "Unknown" ∨
      matchesTimestampFormat (format_modified_time m) = true := by
  unfold format_modified_time
  cases hm : m.mtime with
  | none => left; rfl
  | some t => right; exact formatDateTime_matches t (hval t hm)

theorem entries_modified_shape (fs : FS) (d0 d : FPath) (sh : Bool)
    (names : List String)
    (hval : ∀ p m t, fs.metadata p = some m → m.mtime = some t → t.Valid)
    (e : FileEntry)
    (he : e ∈ sortEntries (baseEntries d0 ++ processEntries fs d sh names)) :
    (e.name = ".." ∧ e.modified = "") ∨ e.modified = "Unknown" ∨
      matchesTimestampFormat e.modified = true := by
  have hmem := (sortEntries_perm _).mem_iff.mp he
  rcases List.mem_append.mp hmem with hb | hp
  · left
    rw [mem_baseEntries d0 e hb]
    exact ⟨rfl, rfl⟩
  · right
    rcases mem_processEntries fs d sh names e hp with ⟨n, m, hn, hm, hname, hmod⟩
    rw [hmod]
    exact format_modified_time_shape m (fun t ht => hval _ m t hm ht)

theorem refresh_listing_core (fs : FS) (a app2 : App)
    (h : refresh_entries fs a = some app2)
    (hread : (fs.readDir a.current_dir).isSome) :
    app2.current_dir = a.current_dir ∧
    listingOf fs app2.current_dir app2.show_hidden = some app2.entries := by
  rcases Option.isSome_iff_exists.mp hread with ⟨names, hn⟩
  have h2 := refresh_entries_of_read fs a names hn
  rw [h, Option.some.injEq] at h2
  subst h2
  exact ⟨rfl, listingOf_eq fs a.current_dir a.show_hidden names hn⟩

/-- C2: starting from any state satisfying the cursor invariant (selection 0,
in particular on an empty listing, or a valid index), any sequence of Up and
Down key presses keeps the selection inside `[0, len(entries) - 1]`, keeps it
at 0 on an empty listing, and never changes the entries. -/
theorem mefiles_C2_thm (app : App) (ms : List CursorMove) (h : cursorInv app) :
    cursorInv (applyCursorMoves ms app) ∧
    (applyCursorMoves ms app).entries = app.entries ∧
    (app.entries = [] → (applyCursorMoves ms app).selected_index = 0) := by
  induction ms generalizing app with
  | nil =>
    refine ⟨h, rfl, fun he => ?_⟩
    unfold cursorInv at h
    have hlen : app.entries.length = 0 := by rw [he]; rfl
    show app.selected_index = 0
    omega
  | cons m ms ih =>
    have h1 := cursorInv_move m app h
    have he := applyCursorMove_entries m app
    obtain ⟨ia, ea, za⟩ := ih (applyCursorMove m app) h1
    have hs : applyCursorMoves (m :: ms) app =
        applyCursorMoves ms (applyCursorMove m app) := rfl
    rw [hs]
    exact ⟨ia, by rw [ea, he], fun hnil => za (by rw [he, hnil])⟩

/-- Witness for C2 at a concrete two-entry state and a concrete key
sequence. -/
theorem mefiles_C2_wit :
    cursorInv (applyCursorMoves
      [CursorMove.down, CursorMove.up, CursorMove.up] appC2) ∧
    (applyCursorMoves
      [CursorMove.down, CursorMove.up, CursorMove.up] appC2).entries =
      appC2.entries ∧
    (appC2.entries = [] →
      (applyCursorMoves
        [CursorMove.down, CursorMove.up, CursorMove.up] appC2).selected_index
        = 0) :=
  mefiles_C2_thm appC2 [CursorMove.down, CursorMove.up, CursorMove.up]
    (by decide)

/-- C6 counterexample: when the editor child process cannot be spawned, the
`.expect` call panics (modelled by `none`), so the failure is fatal to the
browser, not reported-and-recovered as the claim states. -/
theorem mefiles_C6_cex : open_in_neovim SpawnOutcome.spawnFailed = none := rfl

/-- C6 (amended): a spawn failure of the editor panics the process; when the
editor does run, a non-zero exit status is reported (and a zero status is
not), and control returns to the browser loop without aborting it. -/
theorem mefiles_C6_thm :
    open_in_neovim SpawnOutcome.spawnFailed = none ∧
    ∀ c : Int, open_in_neovim (SpawnOutcome.exited c) = some (c != 0) :=
  ⟨rfl, fun _ => rfl⟩

/-- C7: navigating to a path that is not a directory is a no-op: the state,
all four fields included, is returned unchanged. -/
theorem mefiles_C7_thm (fs : FS) (app : App) (p : FPath)
    (h : fs.isDirPath p = false) :
    navigate_to fs app p = some app := by
  unfold navigate_to
  rw [h]
  rfl

/-- Witness for C7: navigating to the non-directory path `zzz`. -/
theorem mefiles_C7_wit : navigate_to fsW appW ["zzz"] = some appW :=
  mefiles_C7_thm fsW appW ["zzz"] rfl

/-- C9: pressing Enter with the selection at or past the end of the listing
(in particular on an empty listing) changes nothing: the state is returned
unchanged and no path is handed to the editor. -/
theorem mefiles_C9_thm (fs : FS) (app : App)
    (h : app.entries.length ≤ app.selected_index) :
    pressEnter fs app = (some app, none) := by
  unfold pressEnter
  rw [dif_neg (by omega)]

/-- Witness for C9: Enter on an empty listing with a stale cursor. -/
theorem mefiles_C9_wit : pressEnter fsW appW = (some appW, none) :=
  mefiles_C9_thm fsW appW (by decide)

/-- C10: toggling hidden files twice restores the show-hidden flag, whenever
both refreshes return (no panic). -/
theorem mefiles_C10_thm (fs : FS) (app app1 app2 : App)
    (h1 : toggle_hidden_files fs app = some app1)
    (h2 : toggle_hidden_files fs app1 = some app2) :
    app2.show_hidden = app.show_hidden := by
  unfold toggle_hidden_files at h1 h2
  have e1 : app1.show_hidden = !app.show_hidden :=
    refresh_entries_show_hidden _ _ _ h1
  have e2 : app2.show_hidden = !app1.show_hidden :=
    refresh_entries_show_hidden _ _ _ h2
  rw [e2, e1, Bool.not_not]

/-- Witness for C10: toggling twice from `appW`. -/
theorem mefiles_C10_wit : rW4.show_hidden = appW.show_hidden :=
  mefiles_C10_thm fsW appW rW3 rW4 rfl rfl

/-- C3 counterexample: toggling hidden files while the current directory `a`
is unreadable falls back to the root; the resulting current directory is the
root, but the entries still contain the stale `..` entry of `a`, so they are
not the listing of the new current directory under the new flag. The
selection is reset to 0 as claimed; the entries conjunct fails. -/
theorem mefiles_C3_cex :
    (toggle_hidden_files fs3 app1).map App.current_dir = some [] ∧
    (toggle_hidden_files fs3 app1).map
      (fun a => a.entries.map FileEntry.name) = some ["..", "a"] ∧
    (listingOf fs3 [] true).map (List.map FileEntry.name) = some ["a"] ∧
    (["..", "a"] : List String) ≠ ["a"] :=
  ⟨rfl, rfl, rfl, by decide⟩

/-- C3 (amended): after a successful descend into a directory, ascend with an
existing parent, or hidden-files toggle, the selection is 0; and whenever the
target directory itself was readable (so the one-level fallback did not run),
the new current directory is the (canonicalized) target and the entries are
exactly its listing under the current flag. -/
theorem mefiles_C3_thm (fs : FS) (app : App) :
    (∀ p app2, fs.isDirPath p = true → navigate_to fs app p = some app2 →
      app2.selected_index = 0 ∧
      ((fs.readDir (resolvePath fs p)).isSome →
        app2.current_dir = resolvePath fs p ∧
        listingOf fs app2.current_dir app2.show_hidden = some app2.entries)) ∧
    (∀ pp app2, parentPath app.current_dir = some pp →
      navigate_up fs app = some app2 →
      app2.selected_index = 0 ∧
      ((fs.readDir (resolvePath fs pp)).isSome →
        app2.current_dir = resolvePath fs pp ∧
        listingOf fs app2.current_dir app2.show_hidden = some app2.entries)) ∧
    (∀ app2, toggle_hidden_files fs app = some app2 →
      app2.selected_index = 0 ∧ app2.show_hidden = (!app.show_hidden) ∧
      ((fs.readDir app.current_dir).isSome →
        app2.current_dir = app.current_dir ∧
        listingOf fs app2.current_dir app2.show_hidden = some app2.entries)) := by
  refine ⟨?_, ?_, ?_⟩
  · intro p app2 hdir hnav
    unfold navigate_to at hnav
    rw [if_pos hdir] at hnav
    refine ⟨refresh_entries_selected_index _ _ _ hnav, fun hread => ?_⟩
    exact refresh_listing_core fs _ app2 hnav hread
  · intro pp app2 hpar hnav
    unfold navigate_up at hnav
    rw [hpar] at hnav
    refine ⟨refresh_entries_selected_index _ _ _ hnav, fun hread => ?_⟩
    exact refresh_listing_core fs _ app2 hnav hread
  · intro app2 htog
    unfold toggle_hidden_files at htog
    refine ⟨refresh_entries_selected_index _ _ _ htog,
      refresh_entries_show_hidden _ _ _ htog, fun hread => ?_⟩
    exact refresh_listing_core fs
      { app with show_hidden := !app.show_hidden } app2 htog hread

/-- Witness for C3: in the witness filesystem, descend from `d` into `d/sub`,
ascend from `d` to the root, and toggle hidden files at `d`; each inner
readability hypothesis is discharged concretely. -/
theorem mefiles_C3_wit :
    (rW1.selected_index = 0 ∧
      rW1.current_dir = resolvePath fsW ["d", "sub"] ∧
      listingOf fsW rW1.current_dir rW1.show_hidden = some rW1.entries) ∧
    (rW2.selected_index = 0 ∧
      rW2.current_dir = resolvePath fsW [] ∧
      listingOf fsW rW2.current_dir rW2.show_hidden = some rW2.entries) ∧
    (rW3.selected_index = 0 ∧ rW3.show_hidden = (!appW.show_hidden) ∧
      rW3.current_dir = appW.current_dir ∧
      listingOf fsW rW3.current_dir rW3.show_hidden = some rW3.entries) := by
  refine ⟨?_, ?_, ?_⟩
  · obtain ⟨hsel, hrest⟩ :=
      (mefiles_C3_thm fsW appW).1 ["d", "sub"] rW1 rfl rfl
    obtain ⟨hc, hl⟩ := hrest rfl
    exact ⟨hsel, hc, hl⟩
  · obtain ⟨hsel, hrest⟩ := (mefiles_C3_thm fsW appW).2.1 [] rW2 rfl rfl
    obtain ⟨hc, hl⟩ := hrest rfl
    exact ⟨hsel, hc, hl⟩
  · obtain ⟨hsel, hsh, hrest⟩ := (mefiles_C3_thm fsW appW).2.2 rW3 rfl
    obtain ⟨hc, hl⟩ := hrest rfl
    exact ⟨hsel, hsh, hc, hl⟩

/-- C4 counterexample: with `a/b` and `a` both unreadable but the root
readable, the claim says the loader should walk up to the nearest readable
ancestor (the root); the code instead only tries the immediate parent `a`
and, finding it unreadable too, panics (`none`). -/
theorem mefiles_C4_cex :
    fs4.readDir [] = some [] ∧ parentPath ["a", "b"] = some ["a"] ∧
    parentPath ["a"] = some [] ∧ refresh_entries fs4 app4 = none :=
  ⟨rfl, rfl, rfl, rfl⟩

/-- C4 (amended): when the current directory is unreadable, the loader falls
back exactly one level: with no parent it panics; with an unreadable parent
it panics (even if a further ancestor is readable); with a readable parent it
loads the parent listing and makes the parent the current directory,
preserving the show-hidden flag. -/
theorem mefiles_C4_thm (fs : FS) (app : App)
    (h : fs.readDir app.current_dir = none) :
    (parentPath app.current_dir = none → refresh_entries fs app = none) ∧
    (∀ pp, parentPath app.current_dir = some pp →
      (fs.readDir pp = none → refresh_entries fs app = none) ∧
      (∀ names, fs.readDir pp = some names →
        ∃ app2, refresh_entries fs app = some app2 ∧ app2.current_dir = pp ∧
          app2.selected_index = 0 ∧
          app2.show_hidden = app.show_hidden)) := by
  constructor
  · intro hp
    unfold refresh_entries
    simp only [h, hp]
  · intro pp hp
    constructor
    · intro hr
      unfold refresh_entries
      simp only [h, hp, hr]
    · intro names hr
      refine ⟨{ current_dir := pp,
                entries := sortEntries (baseEntries app.current_dir ++
                  processEntries fs pp app.show_hidden names),
                selected_index := 0,
                show_hidden := app.show_hidden }, ?_, rfl, rfl, rfl⟩
      unfold refresh_entries
      simp only [h, hp, hr]

/-- Witness for C4: in the witness filesystem, `d/x` is unreadable and its
parent `d` is readable, so the refresh lands in `d`. -/
theorem mefiles_C4_wit :
    ∃ app2, refresh_entries fsW appW4 = some app2 ∧
      app2.current_dir = ["d"] ∧ app2.selected_index = 0 ∧
      app2.show_hidden = appW4.show_hidden :=
  ((mefiles_C4_thm fsW appW4 rfl).2 ["d"] rfl).2 ["sub"] rfl

/-- C5 counterexample: directory `a` has a parent and contains a visible
child directory named `!b`; since `!` sorts before `.`, the sort places `!b`
before the synthetic `..` entry, so `..` is present but not at position 0 as
the claim requires. -/
theorem mefiles_C5_cex :
    parentPath app1.current_dir = some [] ∧
    (refresh_entries fs5 app1).map
      (fun a => a.entries.map FileEntry.name) = some ["!b", ".."] ∧
    (refresh_entries fs5 app1).map
      (fun a => (a.entries.map FileEntry.name).head?) = some (some "!b") ∧
    ("!b" : String) ≠ ".." :=
  ⟨rfl, rfl, rfl, by decide⟩

/-- C5 (amended): when the directory is read directly (no fallback) and, as
on a real filesystem, `read_dir` never yields the name `..`: if the current
directory has a parent the listing contains the synthetic `..` entry, and
that entry is at position 0 provided every visible child entry compares at or
after it under the sort order (directories before files, case-insensitive
name comparison); if there is no parent, no entry is named `..`. A visible
child directory can sort before `..` — a name need not even start below the
dot, since `.!x` beats `..` at its second character — and then displaces it
from position 0. -/
theorem mefiles_C5_thm (fs : FS) (app : App) (names : List String)
    (hread : fs.readDir app.current_dir = some names)
    (hnodots : ".." ∉ names) :
    ∃ app2, refresh_entries fs app = some app2 ∧
      ((parentPath app.current_dir).isSome →
        parentEntry app.current_dir ∈ app2.entries ∧
        ((∀ e ∈ processEntries fs app.current_dir app.show_hidden names,
            entryLE (parentEntry app.current_dir) e = true) →
          app2.entries.head? = some (parentEntry app.current_dir))) ∧
      (parentPath app.current_dir = none →
        ∀ e ∈ app2.entries, e.name ≠ "..") := by
  refine ⟨_, refresh_entries_of_read fs app names hread, ?_, ?_⟩
  · intro hp
    have hbase : baseEntries app.current_dir = [parentEntry app.current_dir] := by
      unfold baseEntries
      rcases Option.isSome_iff_exists.mp hp with ⟨pp, hpp⟩
      rw [hpp]
    constructor
    · show parentEntry app.current_dir ∈ sortEntries (baseEntries app.current_dir
        ++ processEntries fs app.current_dir app.show_hidden names)
      apply (sortEntries_perm _).mem_iff.mpr
      rw [hbase]
      exact List.mem_append.mpr (Or.inl (List.mem_singleton.mpr rfl))
    · intro hmin
      show (sortEntries (baseEntries app.current_dir ++
        processEntries fs app.current_dir app.show_hidden names)).head? = _
      rw [hbase, List.singleton_append, sortEntries_cons_min _ _ hmin]
      rfl
  · intro hp e he
    have hbase : baseEntries app.current_dir = [] := by
      unfold baseEntries
      rw [hp]
    have he2 := (sortEntries_perm _).mem_iff.mp he
    rw [hbase, List.nil_append] at he2
    rcases mem_processEntries _ _ _ _ _ he2 with ⟨n, m, hn, hm, hname, hmod⟩
    rw [hname]
    intro heq
    rw [heq] at hn
    exact hnodots hn

/-- Witness for C5: refreshing the witness state at `d`, which has the parent
root and the single visible child directory `sub`. -/
theorem mefiles_C5_wit :
    ∃ app2, refresh_entries fsW appW = some app2 ∧
      ((parentPath appW.current_dir).isSome →
        parentEntry appW.current_dir ∈ app2.entries ∧
        ((∀ e ∈ processEntries fsW appW.current_dir appW.show_hidden ["sub"],
            entryLE (parentEntry appW.current_dir) e = true) →
          app2.entries.head? = some (parentEntry appW.current_dir))) ∧
      (parentPath appW.current_dir = none →
        ∀ e ∈ app2.entries, e.name ≠ "..") :=
  mefiles_C5_thm fsW appW ["sub"] rfl (by decide)

/-- C1 counterexample: for directory `a` with visible children `f` (readable
metadata) and `g` (unreadable metadata), hidden flag off, the produced names
are `[.., f]` while the children visible under the flag are `[f, g]`: the
listing adds the synthetic `..` (not a child) and drops `g`, so it is not
"exactly the visible children". -/
theorem mefiles_C1_cex :
    (refresh_entries fs1 app1).map
      (fun a => a.entries.map FileEntry.name) = some ["..", "f"] ∧
    visibleChildNames fs1 ["a"] false = ["f", "g"] ∧
    ¬ List.Perm ["..", "f"] (["f", "g"] : List String) := by
  refine ⟨rfl, rfl, fun h => ?_⟩
  have hg : ("g" : String) ∈ (["..", "f"] : List String) :=
    h.mem_iff.mpr (by decide)
  exact absurd hg (by decide)

/-- C1 (amended): when `read_dir` succeeds with duplicate-free names never
equal to `..`, the produced entry names are a permutation of the synthetic
`..` (present exactly when the directory has a parent) plus the children that
pass the hidden-marker filter and have readable metadata; each name appears
exactly once; every directory entry (the `..` entry included) precedes every
file entry; and within each group the case-insensitive keys are
nondecreasing. -/
theorem mefiles_C1_thm (fs : FS) (app : App) (names : List String)
    (hread : fs.readDir app.current_dir = some names)
    (hnodup : names.Nodup) (hnodots : ".." ∉ names) :
    ∃ app2, refresh_entries fs app = some app2 ∧
      List.Perm (app2.entries.map FileEntry.name)
        ((if (parentPath app.current_dir).isSome then [".."] else []) ++
          names.filter (fun n => visibleName app.show_hidden n &&
            (fs.metadata (app.current_dir ++ [n])).isSome)) ∧
      (app2.entries.map FileEntry.name).Nodup ∧
      app2.entries.Pairwise (fun a b => a.is_dir = false → b.is_dir = false) ∧
      app2.entries.Pairwise (fun a b => a.is_dir = b.is_dir →
        strCmp (lowerKey a.name) (lowerKey b.name) ≠ Ordering.gt) := by
  refine ⟨_, refresh_entries_of_read fs app names hread, ?_, ?_, ?_, ?_⟩
  · show List.Perm ((sortEntries (baseEntries app.current_dir ++
      processEntries fs app.current_dir app.show_hidden names)).map
        FileEntry.name) _
    have hperm := (sortEntries_perm (baseEntries app.current_dir ++
      processEntries fs app.current_dir app.show_hidden names)).map
        FileEntry.name
    have hmap : (baseEntries app.current_dir ++
        processEntries fs app.current_dir app.show_hidden names).map
          FileEntry.name =
        ((if (parentPath app.current_dir).isSome then [".."] else []) ++
          names.filter (fun n => visibleName app.show_hidden n &&
            (fs.metadata (app.current_dir ++ [n])).isSome)) := by
      rw [List.map_append, baseEntries_map_name, processEntries_map_name]
    rw [hmap] at hperm
    exact hperm
  · show ((sortEntries (baseEntries app.current_dir ++
      processEntries fs app.current_dir app.show_hidden names)).map
        FileEntry.name).Nodup
    have hperm := (sortEntries_perm (baseEntries app.current_dir ++
      processEntries fs app.current_dir app.show_hidden names)).map
        FileEntry.name
    apply hperm.nodup_iff.mpr
    rw [List.map_append, baseEntries_map_name, processEntries_map_name]
    have hfil : (names.filter (fun n => visibleName app.show_hidden n &&
        (fs.metadata (app.current_dir ++ [n])).isSome)).Nodup :=
      hnodup.filter _
    cases hp : (parentPath app.current_dir).isSome
    · simp only [hp, Bool.false_eq_true, if_false, List.nil_append]
      exact hfil
    · simp only [hp, if_true, List.singleton_append]
      exact List.nodup_cons.mpr
        ⟨fun hmem => hnodots (List.mem_of_mem_filter hmem), hfil⟩
  · show (sortEntries (baseEntries app.current_dir ++
      processEntries fs app.current_dir app.show_hidden names)).Pairwise _
    exact (sortEntries_pairwise _).imp
      (fun hle ha => entryLE_dirs_first _ _ hle ha)
  · show (sortEntries (baseEntries app.current_dir ++
      processEntries fs app.current_dir app.show_hidden names)).Pairwise _
    exact (sortEntries_pairwise _).imp
      (fun hle hd => entryLE_alpha _ _ hle hd)

/-- Witness for C1: the witness directory `d` with the single child `sub`. -/
theorem mefiles_C1_wit :
    ∃ app2, refresh_entries fsW appW = some app2 ∧
      List.Perm (app2.entries.map FileEntry.name)
        ((if (parentPath appW.current_dir).isSome then [".."] else []) ++
          (["sub"] : List String).filter (fun n =>
            visibleName appW.show_hidden n &&
              (fsW.metadata (appW.current_dir ++ [n])).isSome)) ∧
      (app2.entries.map FileEntry.name).Nodup ∧
      app2.entries.Pairwise (fun a b => a.is_dir = false → b.is_dir = false) ∧
      app2.entries.Pairwise (fun a b => a.is_dir = b.is_dir →
        strCmp (lowerKey a.name) (lowerKey b.name) ≠ Ordering.gt) :=
  mefiles_C1_thm fsW appW ["sub"] rfl (by decide) (by decide)

/-- C8 counterexample: the synthetic `..` entry is built with an empty
modified string, which is neither a `YYYY-MM-DD HH:MM:SS` timestamp nor the
literal `Unknown`, so not every entry satisfies the claimed dichotomy. -/
theorem mefiles_C8_cex :
    (refresh_entries fs1 app1).map
      (fun a => a.entries.map FileEntry.modified) = some ["", "Unknown"] ∧
    ("" : String) ≠ "Unknown" ∧ matchesTimestampFormat "" = false :=
  ⟨rfl, by decide, rfl⟩

/-- C8 (amended): after any successful refresh, every entry except the
synthetic `..` entry (whose modified string is empty) carries either the
literal `Unknown` (timestamp unavailable) or a string of the shape
`YYYY-MM-DD HH:MM:SS`; building the attribute never fails, being a total
function of the metadata. -/
theorem mefiles_C8_thm (fs : FS) (app app2 : App)
    (hval : ∀ p m t, fs.metadata p = some m → m.mtime = some t → t.Valid)
    (h : refresh_entries fs app = some app2) :
    ∀ e ∈ app2.entries,
      (e.name = ".." ∧ e.modified = "") ∨ e.modified = "Unknown" ∨
        matchesTimestampFormat e.modified = true := by
  intro e he
  rcases refresh_entries_shape fs app app2 h with ⟨names, hread, hent⟩
  rw [hent] at he
  exact entries_modified_shape fs app.current_dir app2.current_dir
    app.show_hidden names hval e he

/-- Witness for C8: the refresh of `appW`, whose metadata validity hypothesis
holds vacuously (all witness timestamps are unavailable), evaluated at the
concrete entry for `d/sub`. -/
theorem mefiles_C8_wit :
    (subEntryW.name = ".." ∧ subEntryW.modified = "") ∨
      subEntryW.modified = "Unknown" ∨
      matchesTimestampFormat subEntryW.modified = true :=
  mefiles_C8_thm fsW appW rW4
    (by
      intro p m t hm ht
      have hm2 : fsWmeta p = some m := hm
      unfold fsWmeta at hm2
      split at hm2
      · rw [Option.some.injEq] at hm2
        subst hm2
        exact absurd ht (by simp)
      · split at hm2
        · rw [Option.some.injEq] at hm2
          subst hm2
          exact absurd ht (by simp)
        · exact absurd hm2 (by simp))
    rfl subEntryW (by decide)

end MeFiles
